import Mathlib

/- Verification of the cycle-accurate memory-hierarchy simulator (mem_sim.py).
   The file shallowly embeds the simulator's data model and operations
   (PLRU replacement trees, cache levels, DDR memory and its controller,
   interconnect, core hazard logic) as executable Lean definitions and then
   proves or refutes the specification's claims about them. -/

namespace MemSim

/-- Python int.bit_length for a nonnegative integer, written with explicit
fuel; fuel n suffices because the argument halves at every step. -/
def bitLengthAux : Nat → Nat → Nat
  | 0, _ => 0
  | fuel + 1, n => if n = 0 then 0 else bitLengthAux fuel (n / 2) + 1

/-- Python n.bit_length(). -/
def bit_length (n : Nat) : Nat := bitLengthAux n n

/- PLRU (mem_sim.py lines 63-91).  The bits array of length ways - 1 is
   embedded as a function from tree index to stored integer; the source
   only ever stores 0 or 1 there. -/

/-- Loop body of PLRU.update_on_access: r counts the remaining levels, so
the source's shift amount num_levels - 1 - level equals r - 1 at each
step.  At each level the visited bit is set to the opposite of the
direction taken and the walk descends to child (idx << 1) + 1 + direction. -/
def updateOnAccessAux (way : Nat) : Nat → (Nat → Nat) → Nat → (Nat → Nat)
  | 0, bits, _ => bits
  | r + 1, bits, idx =>
      updateOnAccessAux way r
        (Function.update bits idx (1 - ((way >>> r) &&& 1)))
        ((idx <<< 1) + 1 + ((way >>> r) &&& 1))

/-- PLRU.update_on_access(way) on a tree for the given number of ways. -/
def update_on_access (ways way : Nat) (bits : Nat → Nat) : Nat → Nat :=
  updateOnAccessAux way (bit_length ways - 1) bits 0

/-- Loop body of PLRU.get_victim: at each remaining level read the bit at
idx, shift it into the accumulated way, and descend that direction. -/
def getVictimAux (bits : Nat → Nat) : Nat → Nat → Nat → Nat
  | 0, _, way => way
  | r + 1, idx, way =>
      getVictimAux bits r ((idx <<< 1) + 1 + bits idx) ((way <<< 1) ||| bits idx)

/-- PLRU.get_victim() on a tree for the given number of ways. -/
def get_victim (ways : Nat) (bits : Nat → Nat) : Nat :=
  getVictimAux bits (bit_length ways - 1) 0 0

/-- The tree indices read by get_victim, in walk order (instrumentation of
the same loop, used to state the array-bounds claim). -/
def getVictimReads (bits : Nat → Nat) : Nat → Nat → List Nat
  | 0, _ => []
  | r + 1, idx => idx :: getVictimReads bits r ((idx <<< 1) + 1 + bits idx)

/-- Indices into the bits array read during get_victim. -/
def get_victim_reads (ways : Nat) (bits : Nat → Nat) : List Nat :=
  getVictimReads bits (bit_length ways - 1) 0

/- MemoryRequest (mem_sim.py lines 96-110).  A callback is a closure in
   the source; the simulator only stores it, tests it for presence and
   fires it, so it is embedded as a presence flag. completion_time starts
   at the sentinel -1 and is set by the controller. -/

inductive ReqType where
  | read
  | write
deriving DecidableEq

structure MemoryRequest where
  core_id : Nat
  time : Nat
  req_type : ReqType
  addr : Nat
  has_callback : Bool
  completion_time : Int := -1
deriving DecidableEq

/-- MemoryRequest.__lt__: ordering used by the heaps, comparing arrival
times only. -/
def MemoryRequest.lt (a b : MemoryRequest) : Bool :=
  decide (a.time < b.time)

/- DDR memory model (mem_sim.py lines 326-439).  Per-bank arrays are
   embedded as functions from bank number. -/

inductive DDRState where
  | IDLE
  | ACTIVATE_BANK_ROW
  | WRITING
  | READING
  | PRECHARGING
deriving DecidableEq

structure DDRMemory where
  num_banks : Nat
  bank_states : Nat → DDRState
  bank_timers : Nat → Int
  bank_open_row : Nat → Option Nat
  scheduled_completions : List (Int × MemoryRequest)

/-- DDRMemory._get_bank. -/
def DDRMemory.get_bank (m : DDRMemory) (addr : Nat) : Nat :=
  addr % m.num_banks

/-- DDRMemory._get_row: each row covers 16 addresses. -/
def ddr_get_row (addr : Nat) : Nat :=
  addr / 16

/-- DDRMemory.request (lines 360-402): the per-bank FSM transition on a
command from the controller.  In every branch, including the ERROR
branches that only log, the request is pushed onto the completion heap
(line 402); the heap is embedded as a list holding its multiset of
entries. -/
def DDRMemory.request (m : DDRMemory) (req : MemoryRequest) : DDRMemory :=
  let bank := m.get_bank req.addr
  let row := ddr_get_row req.addr
  let current_state := m.bank_states bank
  let m2 :=
    match req.req_type with
    | ReqType.read =>
        if current_state = DDRState.IDLE ∨ m.bank_open_row bank ≠ some row then
          { m with bank_states := Function.update m.bank_states bank DDRState.READING,
                   bank_timers := Function.update m.bank_timers bank req.completion_time,
                   bank_open_row := Function.update m.bank_open_row bank (some row) }
        else if current_state = DDRState.ACTIVATE_BANK_ROW ∨ current_state = DDRState.READING then
          { m with bank_states := Function.update m.bank_states bank DDRState.READING,
                   bank_timers := Function.update m.bank_timers bank req.completion_time }
        else
          m
    | ReqType.write =>
        if current_state = DDRState.IDLE ∨ m.bank_open_row bank ≠ some row then
          { m with bank_states := Function.update m.bank_states bank DDRState.WRITING,
                   bank_timers := Function.update m.bank_timers bank req.completion_time,
                   bank_open_row := Function.update m.bank_open_row bank (some row) }
        else if current_state = DDRState.ACTIVATE_BANK_ROW ∨ current_state = DDRState.WRITING then
          { m with bank_states := Function.update m.bank_states bank DDRState.WRITING,
                   bank_timers := Function.update m.bank_timers bank req.completion_time }
        else
          m
  { m2 with scheduled_completions := m2.scheduled_completions ++ [(req.completion_time, req)] }

/- DDR memory controller (mem_sim.py lines 166-323).  The controller's
   link to the DDR is flattened into the fields it reads from it
   (num_banks, base_latency, row_hit_latency); scheduled_ddr_requests
   stores the request of each in-flight record, which is all the
   completion drain consults. -/

structure DDRMemoryController where
  queue : List MemoryRequest
  scheduled_ddr_requests : List MemoryRequest
  cycle : Nat
  tRCD : Nat
  tRP : Nat
  tCAS : Nat
  tRC : Nat
  tWR : Nat
  tRTP : Nat
  tCCD : Nat
  last_command_time : Nat → Option Nat
  bank_open_row : Nat → Option Nat
  bank_precharge_complete_time : Nat → Nat
  last_access_command : Nat → Option ReqType
  last_access_addr : Nat → Option Nat
  num_banks : Nat
  base_latency : Nat
  row_hit_latency : Nat

/-- Bank of an address as the controller computes it (self.ddr._get_bank). -/
def DDRMemoryController.get_bank (c : DDRMemoryController) (addr : Nat) : Nat :=
  addr % c.num_banks

/-- DDRMemoryController._complete_ddr_requests (lines 206-224): requests
with completion_time ≤ cycle are completed and removed; a completed read
fires its callback when it has one.  Returns (reads whose callback fires,
remaining in-flight list). -/
def complete_ddr_requests (cycle : Nat) (scheduled : List MemoryRequest) :
    List MemoryRequest × List MemoryRequest :=
  (scheduled.filter (fun r =>
      decide (r.completion_time ≤ (cycle : Int)) &&
        decide (r.req_type = ReqType.read) && r.has_callback),
   scheduled.filter (fun r => !decide (r.completion_time ≤ (cycle : Int))))

/-- Candidate filter of _schedule_next_request (lines 239-254): the bank
must be out of precharge and past the command-to-command delay, where a
bank with no previous command defaults to -tRC. -/
def candidate_ok (c : DDRMemoryController) (req : MemoryRequest) : Bool :=
  let bank := c.get_bank req.addr
  let last_cmd_time : Int :=
    match c.last_command_time bank with
    | some t => (t : Int)
    | none => -(c.tRC : Int)
  decide (c.bank_precharge_complete_time bank ≤ c.cycle) &&
    !decide ((c.cycle : Int) < last_cmd_time + (c.tCCD : Int))

/-- The candidate set formed each scheduling attempt. -/
def candidates (c : DDRMemoryController) : List MemoryRequest :=
  c.queue.filter (candidate_ok c)

/-- The sort key of lines 265-269: row hit first, reads before writes,
oldest arrival time first. -/
def sched_key (c : DDRMemoryController) (req : MemoryRequest) : Nat × Nat × Nat :=
  (if c.bank_open_row (c.get_bank req.addr) = some (ddr_get_row req.addr) then 0 else 1,
   if req.req_type = ReqType.read then 0 else 1,
   req.time)

/-- Strict lexicographic comparison of sort keys, as Python compares the
key tuples. -/
def key_lt (a b : Nat × Nat × Nat) : Bool :=
  decide (a.1 < b.1) ||
    (decide (a.1 = b.1) &&
      (decide (a.2.1 < b.2.1) ||
        (decide (a.2.1 = b.2.1) && decide (a.2.2 < b.2.2))))

/-- candidates.sort(key)[0]: Python's stable sort places first the
earliest element whose key is minimal, computed here by a left fold that
replaces the current best only on strictly smaller key. -/
def select_best (c : DDRMemoryController) : MemoryRequest → List MemoryRequest → MemoryRequest
  | best, [] => best
  | best, r :: rest =>
      if key_lt (sched_key c r) (sched_key c best) then select_best c r rest
      else select_best c best rest

/-- Read/write turnaround penalty of lines 291-300. -/
def transition_penalty (c : DDRMemoryController) (bank : Nat) (k : ReqType) : Nat :=
  match c.last_access_command bank with
  | some ReqType.write => if k = ReqType.read then c.tWR else 0
  | some ReqType.read => if k = ReqType.write then c.tWR + 2 else 0
  | none => 0

/-- DDRMemoryController._schedule_next_request (lines 227-323).  Returns
the new controller state and, when a request is scheduled, that request
(as it sat in the queue) with its completion time.  The queue removal of
lines 310-314 happens before the request's time and completion_time are
mutated, so the original request value is erased; the mutated copy is
what is passed to the DDR and recorded in scheduled_ddr_requests. -/
def schedule_next_request (c : DDRMemoryController) :
    DDRMemoryController × Option (MemoryRequest × Nat) :=
  if c.queue.isEmpty then (c, none)
  else
    match candidates c with
    | [] => (c, none)
    | c0 :: crest =>
        let best := select_best c c0 crest
        let bank := c.get_bank best.addr
        let row := ddr_get_row best.addr
        let rowHit := c.bank_open_row bank = some row
        let delay0 := if rowHit then c.row_hit_latency else c.tRP + c.tRCD + c.tCAS
        let c1 :=
          if rowHit then c
          else
            { c with
                bank_precharge_complete_time :=
                  Function.update c.bank_precharge_complete_time bank (c.cycle + c.tRP),
                bank_open_row := Function.update c.bank_open_row bank (some row) }
        let delay := delay0 + transition_penalty c bank best.req_type
        let completion_time := c.cycle + delay
        let issued := { best with time := c.cycle, completion_time := (completion_time : Int) }
        ({ c1 with
            last_command_time := Function.update c1.last_command_time bank (some c.cycle),
            last_access_command := Function.update c1.last_access_command bank (some best.req_type),
            last_access_addr := Function.update c1.last_access_addr bank (some best.addr),
            queue := c.queue.erase best,
            scheduled_ddr_requests := c1.scheduled_ddr_requests ++ [issued] },
          some (best, completion_time))

/-- A concrete read request, as the experiment issues at cycle 0 for
address 0. -/
def sampleReq : MemoryRequest :=
  { core_id := 0, time := 0, req_type := ReqType.read, addr := 0,
    has_callback := true }

/-- A concrete controller state: the experiment's timing constants
(tRCD 15, tRP 15, tCAS 15, tRC 30, tWR 15, tRTP 8, tCCD 4), four banks,
all banks idle, with one read queued. -/
def sampleController : DDRMemoryController :=
  { queue := [sampleReq]
    scheduled_ddr_requests := []
    cycle := 0
    tRCD := 15, tRP := 15, tCAS := 15, tRC := 30, tWR := 15, tRTP := 8, tCCD := 4
    last_command_time := fun _ => none
    bank_open_row := fun _ => none
    bank_precharge_complete_time := fun _ => 0
    last_access_command := fun _ => none
    last_access_addr := fun _ => none
    num_banks := 4
    base_latency := 0
    row_hit_latency := 0 }

/- CacheLine (mem_sim.py lines 44-48). -/

structure CacheLine where
  valid : Bool
  tag : Option Nat
  dirty : Bool
deriving DecidableEq

/-- Observable actions of the fill continuation lower_cb (lines 512-527),
in program order: the optional victim write-back (sent to the lower
cache's write, which takes no callback, or as a MemoryRequest built with
callback=None — has_callback records that absence), the install of the
fetched line, the PLRU update, and the caller's callback invocation. -/
inductive FillEvent where
  | victimWrite (addr : Nat) (has_callback : Bool)
  | install (line : CacheLine)
  | plruUpdate (way : Nat)
  | onComplete
deriving DecidableEq

/-- The fill continuation lower_cb of CacheLevel.read (lines 512-527),
evaluated at the moment the lower level's callback fires: victim_line is
the victim slot's state at that moment and plru the set's tree.  The
source reads victim_line.tag directly while it is still the old tag
(the new tag is only installed afterwards); tag.getD 0 stands for that
read, which Python performs on an int whenever the valid ∧ dirty guard
holds.  Returns the updated line, the updated PLRU bits, and the emitted
events in order. -/
def lower_cb (write_back : Bool) (num_sets line_size assoc : Nat)
    (victim_line : CacheLine) (index tag victim_idx : Nat) (plru : Nat → Nat) :
    CacheLine × (Nat → Nat) × List FillEvent :=
  let wb :=
    if victim_line.valid && victim_line.dirty && write_back then
      [FillEvent.victimWrite ((victim_line.tag.getD 0 * num_sets + index) * line_size) false]
    else []
  let newLine : CacheLine := { valid := true, tag := some tag, dirty := false }
  (newLine, update_on_access assoc victim_idx plru,
    wb ++ [FillEvent.install newLine, FillEvent.plruUpdate victim_idx,
           FillEvent.onComplete])

/- Construction (mem_sim.py lines 445-458 and 337-351).  Neither
   constructor validates its configuration: CacheLevel.__init__ only
   computes num_sets = (size // line_size) // assoc and allocates the
   sets, so the only way it can fail is Python's ZeroDivisionError when
   line_size or assoc is 0; DDRMemory.__init__ cannot fail at all. -/

structure CacheLevelState where
  line_size : Nat
  assoc : Nat
  num_sets : Nat
  sets : Nat → Nat → CacheLine
  plru_trees : Nat → (Nat → Nat)
  write_back : Bool
  write_allocate : Bool
  hits : Nat
  misses : Nat

/-- CacheLevel.__init__: performs no configuration checks; the error case
is exactly Python's ZeroDivisionError from the num_sets division. -/
def cacheLevelInit (size line_size assoc : Nat) (write_back write_allocate : Bool) :
    Except String CacheLevelState :=
  if line_size = 0 ∨ assoc = 0 then Except.error "ZeroDivisionError"
  else Except.ok
    { line_size := line_size
      assoc := assoc
      num_sets := size / line_size / assoc
      sets := fun _ _ => { valid := false, tag := none, dirty := false }
      plru_trees := fun _ _ => 0
      write_back := write_back
      write_allocate := write_allocate
      hits := 0
      misses := 0 }

/-- DDRMemory.__init__: all banks idle, rows closed, no completions; it
succeeds for every num_banks, including 0. -/
def ddrMemoryInit (num_banks : Nat) : DDRMemory :=
  { num_banks := num_banks
    bank_states := fun _ => DDRState.IDLE
    bank_timers := fun _ => 0
    bank_open_row := fun _ => none
    scheduled_completions := [] }

/-- A read request with its completion time already set by the
controller, as the DDR receives it. -/
def errReq : MemoryRequest :=
  { core_id := 0, time := 0, req_type := ReqType.read, addr := 0,
    has_callback := true, completion_time := 5 }

/-- A DDR state whose bank 0 is PRECHARGING with row 0 open: receiving a
read for address 0 (bank 0, row 0) in this state is the FSM-violation
case of DDRMemory.request. -/
def sampleDDRMemory : DDRMemory :=
  { num_banks := 4
    bank_states := fun b => if b = 0 then DDRState.PRECHARGING else DDRState.IDLE
    bank_timers := fun _ => 0
    bank_open_row := fun b => if b = 0 then some 0 else none
    scheduled_completions := [] }

/- Interconnect (mem_sim.py lines 122-159).  The heapq queue of
   (ready_time, request) pairs is embedded by its contract: a pop
   returns and removes a minimal pair under Python's tuple order —
   ready_time first, then MemoryRequest.__lt__, which compares arrival
   times.  Among pairs tied on both components the heap's order is
   unspecified; the model takes the earliest such pair. -/

structure Interconnect where
  queue : List (Nat × MemoryRequest)
  delay : Nat
  bandwidth : Nat
  cycle : Nat

/-- Python's comparison on (ready_time, request) heap entries. -/
def pairLt (a b : Nat × MemoryRequest) : Bool :=
  decide (a.1 < b.1) || (decide (a.1 = b.1) && MemoryRequest.lt a.2 b.2)

/-- Minimal heap entry (earliest among fully tied entries). -/
def heapMin : (Nat × MemoryRequest) → List (Nat × MemoryRequest) → (Nat × MemoryRequest)
  | m, [] => m
  | m, x :: rest => if pairLt x m then heapMin x rest else heapMin m rest

/-- Interconnect.request (lines 133-140): queue the request with
ready_time = cycle + delay + jitter, the jitter being the externally
seeded random integer in {0, 1, 2}. -/
def Interconnect.request (ic : Interconnect) (req : MemoryRequest) (jitter : Nat) :
    Interconnect :=
  { ic with queue := ic.queue ++ [(ic.cycle + ic.delay + jitter, req)] }

/-- The while loop of Interconnect.tick (lines 149-152): pop while the
root's ready_time has arrived and fewer than bandwidth requests have been
taken this cycle.  Fuel is the queue length, which bounds the number of
pops.  Returns (popped pairs in pop order, remaining queue). -/
def tickLoop (cycle bandwidth : Nat) :
    Nat → Nat → List (Nat × MemoryRequest) →
      List (Nat × MemoryRequest) × List (Nat × MemoryRequest)
  | 0, _, q => ([], q)
  | fuel + 1, processed, q =>
      match q with
      | [] => ([], q)
      | x :: rest =>
          let m := heapMin x rest
          if m.1 ≤ cycle ∧ processed < bandwidth then
            let out := tickLoop cycle bandwidth fuel (processed + 1)
              ((x :: rest).erase m)
            (m :: out.1, out.2)
          else ([], q)

/-- Interconnect.tick (lines 143-159): forward the selected requests in
pop order and advance the local cycle. -/
def Interconnect.tick (ic : Interconnect) : List MemoryRequest × Interconnect :=
  let out := tickLoop ic.cycle ic.bandwidth ic.queue.length 0 ic.queue
  (out.1.map Prod.snd, { ic with queue := out.2, cycle := ic.cycle + 1 })

/-- First request pushed in the tie-break scenario: arrival time 5. -/
def icReqA : MemoryRequest :=
  { core_id := 0, time := 5, req_type := ReqType.read, addr := 0,
    has_callback := true }

/-- Second request pushed in the tie-break scenario: arrival time 3. -/
def icReqB : MemoryRequest :=
  { core_id := 1, time := 3, req_type := ReqType.read, addr := 4,
    has_callback := true }

/-- An interconnect whose queue holds, in insertion order, icReqA then
icReqB, both with ready_time 10, at current cycle 10. -/
def sampleInterconnect : Interconnect :=
  { queue := [(10, icReqA), (10, icReqB)], delay := 5, bandwidth := 4, cycle := 10 }

/- Core hazard logic (mem_sim.py lines 686-737). -/

/-- Core.dependency: an incoming (op, addr) conflicts with a pending
(o, a) when the kinds differ and the addresses match. -/
def dependency (pending : List (ReqType × Nat)) (op : ReqType) (addr : Nat) : Bool :=
  pending.any (fun p => decide (op ≠ p.1) && decide (p.2 = addr))

/-- The instruction-dispatch step of Core.tick (lines 717-737) for the
current cycle's (op, addr): on a hazard the op is stored in stall_op and
nothing is issued; otherwise a write is issued fire-and-forget and a read
is appended to pending_accesses and issued.  Returns (stall_op, issued
operation, new pending_accesses). -/
def core_issue_step (pending : List (ReqType × Nat)) (op : ReqType) (addr : Nat) :
    Option (ReqType × Nat) × Option (ReqType × Nat) × List (ReqType × Nat) :=
  if dependency pending op addr then
    (some (op, addr), none, pending)
  else
    match op with
    | ReqType.write => (none, some (op, addr), pending)
    | ReqType.read => (none, some (op, addr), pending ++ [(ReqType.read, addr)])

theorem bitLengthAux_zero : ∀ fuel, bitLengthAux fuel 0 = 0 := by
  intro fuel; cases fuel <;> simp [bitLengthAux]

theorem bitLengthAux_pow (L : Nat) : ∀ fuel, 2 ^ L ≤ fuel →
    bitLengthAux fuel (2 ^ L) = L + 1 := by
  induction L with
  | zero =>
      intro fuel h
      norm_num at h
      obtain ⟨f, rfl⟩ : ∃ f, fuel = f + 1 := ⟨fuel - 1, by omega⟩
      simp [bitLengthAux, bitLengthAux_zero]
  | succ K ih =>
      intro fuel h
      have hpos : 0 < 2 ^ K := Nat.pos_pow_of_pos _ (by norm_num)
      have hp1 : 0 < 2 ^ (K + 1) := Nat.pos_pow_of_pos _ (by norm_num)
      obtain ⟨f, rfl⟩ : ∃ f, fuel = f + 1 := ⟨fuel - 1, by omega⟩
      have hne : 2 ^ (K + 1) ≠ 0 := by omega
      have hdiv : 2 ^ (K + 1) / 2 = 2 ^ K := by
        rw [pow_succ]
        exact Nat.mul_div_cancel _ (by norm_num)
      have hle : 2 ^ K ≤ f := by
        rw [pow_succ] at h
        omega
      simp only [bitLengthAux, hne, if_false, hdiv, ih f hle]

theorem bit_length_two_pow (L : Nat) : bit_length (2 ^ L) = L + 1 :=
  bitLengthAux_pow L (2 ^ L) le_rfl

theorem shiftLeft_one (a : Nat) : a <<< 1 = 2 * a := by
  rw [Nat.shiftLeft_eq]; ring

theorem lor_two_mul_of_le_one (w d : Nat) (hd : d ≤ 1) :
    (2 * w) ||| d = 2 * w + d := by
  interval_cases d
  · simp
  · have h := Nat.lor_bit false w true 0
    simp [Nat.bit] at h
    simpa using h

theorem and_one_le_one (n : Nat) : n &&& 1 ≤ 1 := Nat.and_le_right

theorem updateOnAccessAux_wf (way : Nat) :
    ∀ r bits idx, (∀ i, bits i ≤ 1) →
      ∀ i, updateOnAccessAux way r bits idx i ≤ 1 := by
  intro r
  induction r with
  | zero => intro bits idx h i; exact h i
  | succ r ih =>
      intro bits idx h i
      simp only [updateOnAccessAux]
      apply ih
      intro j
      by_cases hj : j = idx
      · subst hj; simp [Function.update]
      · simpa [Function.update, hj] using h j

theorem updateOnAccessAux_below (way : Nat) :
    ∀ r bits idx j, j < idx → updateOnAccessAux way r bits idx j = bits j := by
  intro r
  induction r with
  | zero => intro bits idx j _; rfl
  | succ r ih =>
      intro bits idx j hj
      simp only [updateOnAccessAux]
      rw [ih _ _ j (by rw [shiftLeft_one]; omega)]
      simp [Function.update, Nat.ne_of_lt hj]

theorem updateOnAccessAux_root (way r : Nat) (bits : Nat → Nat) :
    updateOnAccessAux way (r + 1) bits 0 0 = 1 - ((way >>> r) &&& 1) := by
  simp only [updateOnAccessAux]
  rw [updateOnAccessAux_below way r _ _ 0 (by rw [shiftLeft_one]; omega)]
  simp [Function.update]

theorem getVictimAux_ge (bits : Nat → Nat) (hwf : ∀ i, bits i ≤ 1) :
    ∀ r idx way, way * 2 ^ r ≤ getVictimAux bits r idx way := by
  intro r
  induction r with
  | zero => intro idx way; simp [getVictimAux]
  | succ r ih =>
      intro idx way
      simp only [getVictimAux]
      have hd := hwf idx
      rw [shiftLeft_one way, lor_two_mul_of_le_one _ _ hd]
      calc way * 2 ^ (r + 1) ≤ (2 * way + bits idx) * 2 ^ r := by ring_nf; nlinarith [Nat.pos_pow_of_pos r (show 0 < 2 by norm_num)]
        _ ≤ _ := ih _ _

theorem getVictimAux_lt (bits : Nat → Nat) (hwf : ∀ i, bits i ≤ 1) :
    ∀ r idx way, getVictimAux bits r idx way < (way + 1) * 2 ^ r := by
  intro r
  induction r with
  | zero => intro idx way; simp [getVictimAux]
  | succ r ih =>
      intro idx way
      simp only [getVictimAux]
      have hd := hwf idx
      rw [shiftLeft_one way, lor_two_mul_of_le_one _ _ hd]
      calc getVictimAux bits r ((idx <<< 1) + 1 + bits idx) (2 * way + bits idx)
          < (2 * way + bits idx + 1) * 2 ^ r := ih _ _
        _ ≤ (way + 1) * 2 ^ (r + 1) := by ring_nf; nlinarith [Nat.pos_pow_of_pos r (show 0 < 2 by norm_num)]

theorem and_one_of_le_one (n : Nat) (h : n ≤ 1) : n &&& 1 = n := by
  interval_cases n
  · simp
  · simp

theorem getVictimReads_bound (bits : Nat → Nat) (hwf : ∀ i, bits i ≤ 1) :
    ∀ r idx, ∀ j ∈ getVictimReads bits (r + 1) idx, j + 2 ≤ (idx + 2) * 2 ^ r := by
  intro r
  induction r with
  | zero =>
      intro idx j hj
      simp [getVictimReads] at hj
      subst hj; simp
  | succ r ih =>
      intro idx j hj
      rw [getVictimReads] at hj
      rcases List.mem_cons.mp hj with rfl | hj
      · exact Nat.le_mul_of_pos_right _ (Nat.pos_pow_of_pos _ (by norm_num))
      · have hrec := ih _ j hj
        have hd := hwf idx
        rw [shiftLeft_one] at hrec
        calc j + 2 ≤ (2 * idx + 1 + bits idx + 2) * 2 ^ r := hrec
          _ ≤ (2 * (idx + 2)) * 2 ^ r := Nat.mul_le_mul_right _ (by omega)
          _ = (idx + 2) * 2 ^ (r + 1) := by ring

/-- C5: for a PLRU tree over assoc = 2 ^ L ways with L ≥ 1, any way
w < assoc and any bit configuration (bits hold 0 or 1, as the source
maintains), get_victim after update_on_access(w) never returns w. -/
theorem plru_update_then_victim_ne (L w : Nat) (bits : Nat → Nat)
    (hL : 1 ≤ L) (hw : w < 2 ^ L) (hwf : ∀ i, bits i ≤ 1) :
    get_victim (2 ^ L) (update_on_access (2 ^ L) w bits) ≠ w := by
  obtain ⟨K, rfl⟩ : ∃ K, L = K + 1 := ⟨L - 1, by omega⟩
  have hposK : 0 < 2 ^ K := Nat.pos_pow_of_pos _ (by norm_num)
  have hlev : bit_length (2 ^ (K + 1)) - 1 = K + 1 := by
    rw [bit_length_two_pow]
    omega
  set bits2 := update_on_access (2 ^ (K + 1)) w bits with hb2
  clear_value bits2
  have hwf2 : ∀ i, bits2 i ≤ 1 := by
    intro i
    rw [hb2]
    unfold update_on_access
    exact updateOnAccessAux_wf w _ bits 0 hwf i
  have hroot : bits2 0 = 1 - ((w >>> K) &&& 1) := by
    rw [hb2]
    unfold update_on_access
    rw [hlev]
    exact updateOnAccessAux_root w K bits
  have hstep : get_victim (2 ^ (K + 1)) bits2
      = getVictimAux bits2 K ((0 <<< 1) + 1 + bits2 0) ((0 <<< 1) ||| bits2 0) := by
    unfold get_victim
    rw [hlev]
    rfl
  have hzlor : (0 <<< 1) ||| bits2 0 = bits2 0 := by
    have := lor_two_mul_of_le_one 0 (bits2 0) (hwf2 0)
    rw [shiftLeft_one]
    omega
  have hge := getVictimAux_ge bits2 hwf2 K ((0 <<< 1) + 1 + bits2 0) (bits2 0)
  have hlt := getVictimAux_lt bits2 hwf2 K ((0 <<< 1) + 1 + bits2 0) (bits2 0)
  rw [hstep, hzlor]
  have hshift : w >>> K = w / 2 ^ K := Nat.shiftRight_eq_div_pow w K
  have hw2 : w < 2 * 2 ^ K := by
    have := hw
    rw [pow_succ] at this
    omega
  have hdivle : w / 2 ^ K ≤ 1 := by
    have := (Nat.div_lt_iff_lt_mul hposK).mpr hw2
    omega
  have hand : (w >>> K) &&& 1 = w / 2 ^ K := by
    rw [hshift]
    exact and_one_of_le_one _ hdivle
  have hmod := Nat.div_add_mod w (2 ^ K)
  have hmlt : w % 2 ^ K < 2 ^ K := Nat.mod_lt _ hposK
  rcases (by omega : w / 2 ^ K = 0 ∨ w / 2 ^ K = 1) with hc | hc
  · have hb0 : bits2 0 = 1 := by rw [hroot, hand, hc]
    rw [hc] at hmod
    rw [hb0] at hge ⊢
    have hwlt : w < 2 ^ K := by omega
    omega
  · have hb0 : bits2 0 = 0 := by rw [hroot, hand, hc]
    rw [hc] at hmod
    rw [hb0] at hlt ⊢
    have hwge : 2 ^ K ≤ w := by omega
    omega

theorem plru_update_then_victim_ne_witness :
    (1 : Nat) ≤ 2 ∧ 2 < 2 ^ 2 ∧
      get_victim (2 ^ 2) (update_on_access (2 ^ 2) 2 (fun _ => 0)) ≠ 2 :=
  ⟨by decide, by decide,
    plru_update_then_victim_ne 2 2 (fun _ => 0) (by decide) (by decide)
      (fun _ => Nat.zero_le 1)⟩

/-- C10: for a PLRU tree over assoc = 2 ^ L ways with L ≥ 1 and bits
holding 0 or 1, get_victim returns a way below assoc and every tree index
it reads lies below assoc - 1, the length of the bits array. -/
theorem plru_victim_and_reads_in_bounds (L : Nat) (bits : Nat → Nat)
    (hL : 1 ≤ L) (hwf : ∀ i, bits i ≤ 1) :
    get_victim (2 ^ L) bits < 2 ^ L ∧
      ∀ j ∈ get_victim_reads (2 ^ L) bits, j < 2 ^ L - 1 := by
  obtain ⟨K, rfl⟩ : ∃ K, L = K + 1 := ⟨L - 1, by omega⟩
  have hposK : 0 < 2 ^ K := Nat.pos_pow_of_pos _ (by norm_num)
  have hlev : bit_length (2 ^ (K + 1)) - 1 = K + 1 := by
    rw [bit_length_two_pow]
    omega
  constructor
  · unfold get_victim
    rw [hlev]
    have := getVictimAux_lt bits hwf (K + 1) 0 0
    simpa using this
  · intro j hj
    unfold get_victim_reads at hj
    rw [hlev] at hj
    have := getVictimReads_bound bits hwf K 0 j hj
    have hps : 2 ^ (K + 1) = 2 * 2 ^ K := by rw [pow_succ]; ring
    omega

theorem plru_victim_and_reads_in_bounds_witness :
    (1 : Nat) ≤ 2 ∧
      (get_victim (2 ^ 2) (fun _ => 1) < 2 ^ 2 ∧
        ∀ j ∈ get_victim_reads (2 ^ 2) (fun _ => 1), j < 2 ^ 2 - 1) :=
  ⟨by decide,
    plru_victim_and_reads_in_bounds 2 (fun _ => 1) (by decide)
      (fun _ => le_rfl)⟩

theorem key_lt_irrefl (k : Nat × Nat × Nat) : key_lt k k = false := by
  simp [key_lt]

theorem key_lt_trans {a b c : Nat × Nat × Nat} (h1 : key_lt a b = true)
    (h2 : key_lt b c = true) : key_lt a c = true := by
  simp only [key_lt, Bool.or_eq_true, Bool.and_eq_true, decide_eq_true_eq] at *
  omega

theorem key_lt_false_trans {a b c : Nat × Nat × Nat} (h1 : key_lt a b = false)
    (h2 : key_lt b c = false) : key_lt a c = false := by
  simp only [key_lt, Bool.or_eq_false_iff, Bool.and_eq_false_iff,
    decide_eq_false_iff_not, decide_eq_true_eq] at *
  omega

theorem select_best_mem (c : DDRMemoryController) :
    ∀ (l : List MemoryRequest) (b : MemoryRequest), select_best c b l ∈ b :: l := by
  intro l
  induction l with
  | nil => intro b; simp [select_best]
  | cons r rest ih =>
      intro b
      simp only [select_best]
      by_cases h : key_lt (sched_key c r) (sched_key c b) = true
      · rw [if_pos h]
        have := ih r
        simp only [List.mem_cons] at this ⊢
        tauto
      · rw [if_neg h]
        have := ih b
        simp only [List.mem_cons] at this ⊢
        tauto

theorem select_best_min (c : DDRMemoryController) :
    ∀ (l : List MemoryRequest) (b r : MemoryRequest), r ∈ b :: l →
      key_lt (sched_key c r) (sched_key c (select_best c b l)) = false := by
  intro l
  induction l with
  | nil =>
      intro b r hr
      simp at hr
      subst hr
      simp [select_best, key_lt_irrefl]
  | cons x rest ih =>
      intro b r hr
      simp only [select_best]
      by_cases h : key_lt (sched_key c x) (sched_key c b) = true
      · rw [if_pos h]
        rcases List.mem_cons.mp hr with rfl | hr2
        · have hxres := ih x x (by simp)
          cases hb : key_lt (sched_key c r) (sched_key c (select_best c x rest))
          · rfl
          · have h3 := key_lt_trans h hb
            rw [hxres] at h3
            exact absurd h3 (by simp)
        · exact ih x r hr2
      · rw [if_neg h]
        rcases List.mem_cons.mp hr with rfl | hr2
        · exact ih _ r (by simp)
        · rcases List.mem_cons.mp hr2 with rfl | hr3
          · exact key_lt_false_trans (Bool.eq_false_iff.mpr h) (ih b b (by simp))
          · exact ih b r (by simp [hr3])

/-- C3: with a non-empty queue, the candidate set is exactly the queued
requests whose bank is out of precharge and past the tCCD window (with
the -tRC default for banks never commanded); an empty candidate set
schedules nothing, otherwise exactly one request is scheduled, a minimum
of the lexicographic key, and it is removed from the queue. -/
theorem controller_schedules_minimal_candidate (c : DDRMemoryController)
    (hq : c.queue ≠ []) :
    (∀ r, r ∈ candidates c ↔ r ∈ c.queue ∧
        c.bank_precharge_complete_time (c.get_bank r.addr) ≤ c.cycle ∧
        ((match c.last_command_time (c.get_bank r.addr) with
          | some t => (t : Int)
          | none => -(c.tRC : Int)) + (c.tCCD : Int) ≤ (c.cycle : Int))) ∧
    (candidates c = [] → schedule_next_request c = (c, none)) ∧
    (candidates c ≠ [] → ∃ best ct,
        (schedule_next_request c).2 = some (best, ct) ∧
        best ∈ candidates c ∧
        (∀ r ∈ candidates c, key_lt (sched_key c r) (sched_key c best) = false) ∧
        (schedule_next_request c).1.queue = c.queue.erase best) := by
  have hqe : c.queue.isEmpty = false := by
    cases hql : c.queue
    · exact absurd hql hq
    · rfl
  refine ⟨?_, ?_, ?_⟩
  · intro r
    rw [candidates, List.mem_filter]
    have hok : candidate_ok c r = true ↔
        (c.bank_precharge_complete_time (c.get_bank r.addr) ≤ c.cycle ∧
          ((match c.last_command_time (c.get_bank r.addr) with
            | some t => (t : Int)
            | none => -(c.tRC : Int)) + (c.tCCD : Int) ≤ (c.cycle : Int))) := by
      unfold candidate_ok
      cases hlc : c.last_command_time (c.get_bank r.addr) <;> simp [hlc]
    rw [hok]
  · intro hc
    simp [schedule_next_request, hqe, hc]
  · intro hc
    obtain ⟨c0, crest, hc2⟩ : ∃ c0 crest, candidates c = c0 :: crest := by
      cases hcc : candidates c
      · exact absurd hcc hc
      · exact ⟨_, _, rfl⟩
    refine ⟨select_best c c0 crest,
      c.cycle +
        ((if c.bank_open_row (c.get_bank (select_best c c0 crest).addr)
              = some (ddr_get_row (select_best c c0 crest).addr)
            then c.row_hit_latency else c.tRP + c.tRCD + c.tCAS) +
          transition_penalty c (c.get_bank (select_best c c0 crest).addr)
            (select_best c c0 crest).req_type), ?_, ?_, ?_, ?_⟩
    · simp [schedule_next_request, hqe, hc2]
    · rw [hc2]
      exact select_best_mem c crest c0
    · intro r hr
      rw [hc2] at hr
      exact select_best_min c crest c0 r hr
    · simp [schedule_next_request, hqe, hc2]

theorem controller_schedules_minimal_candidate_witness :
    sampleController.queue ≠ [] ∧
    ((∀ r, r ∈ candidates sampleController ↔ r ∈ sampleController.queue ∧
        sampleController.bank_precharge_complete_time
            (sampleController.get_bank r.addr) ≤ sampleController.cycle ∧
        ((match sampleController.last_command_time
              (sampleController.get_bank r.addr) with
          | some t => (t : Int)
          | none => -(sampleController.tRC : Int)) +
            (sampleController.tCCD : Int) ≤ (sampleController.cycle : Int))) ∧
    (candidates sampleController = [] →
        schedule_next_request sampleController = (sampleController, none)) ∧
    (candidates sampleController ≠ [] → ∃ best ct,
        (schedule_next_request sampleController).2 = some (best, ct) ∧
        best ∈ candidates sampleController ∧
        (∀ r ∈ candidates sampleController,
          key_lt (sched_key sampleController r)
            (sched_key sampleController best) = false) ∧
        (schedule_next_request sampleController).1.queue
            = sampleController.queue.erase best)) :=
  ⟨by decide, controller_schedules_minimal_candidate sampleController (by decide)⟩

/-- C4: a scheduled request whose bank misses the open row completes
tRP + tRCD + tCAS cycles later, plus tWR on a write-to-read turnaround
and tWR + 2 on a read-to-write turnaround, and the controller marks the
bank precharging until cycle + tRP and records the new open row. -/
theorem controller_row_miss_timing (c : DDRMemoryController)
    (best : MemoryRequest) (ct : Nat)
    (hs : (schedule_next_request c).2 = some (best, ct))
    (hmiss : c.bank_open_row (c.get_bank best.addr) ≠ some (ddr_get_row best.addr)) :
    ct = c.cycle + (c.tRP + c.tRCD + c.tCAS) +
        (if c.last_access_command (c.get_bank best.addr) = some ReqType.write ∧
            best.req_type = ReqType.read then c.tWR
         else if c.last_access_command (c.get_bank best.addr) = some ReqType.read ∧
            best.req_type = ReqType.write then c.tWR + 2
         else 0) ∧
    (schedule_next_request c).1.bank_precharge_complete_time (c.get_bank best.addr)
        = c.cycle + c.tRP ∧
    (schedule_next_request c).1.bank_open_row (c.get_bank best.addr)
        = some (ddr_get_row best.addr) := by
  cases hqe : c.queue.isEmpty
  · cases hcc : candidates c
    · simp [schedule_next_request, hqe, hcc] at hs
    · case cons c0 crest =>
        have hb : best = select_best c c0 crest ∧
            ct = c.cycle +
              ((if c.bank_open_row (c.get_bank (select_best c c0 crest).addr)
                    = some (ddr_get_row (select_best c c0 crest).addr)
                  then c.row_hit_latency else c.tRP + c.tRCD + c.tCAS) +
                transition_penalty c (c.get_bank (select_best c c0 crest).addr)
                  (select_best c c0 crest).req_type) := by
          have := hs
          simp [schedule_next_request, hqe, hcc] at this
          exact ⟨this.1.symm, this.2.symm⟩
        obtain ⟨rfl, hct⟩ := hb
        rw [if_neg hmiss] at hct
        refine ⟨?_, ?_, ?_⟩
        · rw [hct]
          cases hlac : c.last_access_command
              (c.get_bank (select_best c c0 crest).addr) with
          | none => simp [transition_penalty, hlac]
          | some k =>
              cases k <;> cases hrt : (select_best c c0 crest).req_type <;>
                  simp [transition_penalty, hlac, hrt] <;> omega
        · simp [schedule_next_request, hqe, hcc, if_neg hmiss]
        · simp [schedule_next_request, hqe, hcc, if_neg hmiss]
  · simp [schedule_next_request, hqe] at hs

theorem controller_row_miss_timing_witness :
    (schedule_next_request sampleController).2 = some (sampleReq, 45) ∧
    sampleController.bank_open_row (sampleController.get_bank sampleReq.addr)
        ≠ some (ddr_get_row sampleReq.addr) ∧
    (45 = sampleController.cycle +
        (sampleController.tRP + sampleController.tRCD + sampleController.tCAS) +
        (if sampleController.last_access_command
              (sampleController.get_bank sampleReq.addr) = some ReqType.write ∧
            sampleReq.req_type = ReqType.read then sampleController.tWR
         else if sampleController.last_access_command
              (sampleController.get_bank sampleReq.addr) = some ReqType.read ∧
            sampleReq.req_type = ReqType.write then sampleController.tWR + 2
         else 0) ∧
      (schedule_next_request sampleController).1.bank_precharge_complete_time
          (sampleController.get_bank sampleReq.addr)
          = sampleController.cycle + sampleController.tRP ∧
      (schedule_next_request sampleController).1.bank_open_row
          (sampleController.get_bank sampleReq.addr)
          = some (ddr_get_row sampleReq.addr)) :=
  ⟨by decide, by decide,
    controller_row_miss_timing sampleController sampleReq 45 (by decide) (by decide)⟩

/-- C1: when the fill continuation of a read miss fires with the reserved
victim slot still valid and dirty on a write-back level, it first emits
one callback-free write for the victim's reconstructed address
((old tag * num_sets) + index) * line_size, computed from the victim's
old tag, and only then installs valid=true, the missing address's tag,
dirty=false, updates the PLRU with the victim way, and invokes the
caller's callback exactly once. -/
theorem fill_continuation_victim_writeback (write_back : Bool)
    (num_sets line_size assoc : Nat) (victim : CacheLine)
    (index tag victim_idx t : Nat) (plru : Nat → Nat)
    (hv : victim.valid = true) (hd : victim.dirty = true)
    (hwb : write_back = true) (ht : victim.tag = some t) :
    (lower_cb write_back num_sets line_size assoc victim index tag victim_idx plru).2.2
        = [FillEvent.victimWrite ((t * num_sets + index) * line_size) false,
           FillEvent.install { valid := true, tag := some tag, dirty := false },
           FillEvent.plruUpdate victim_idx,
           FillEvent.onComplete] ∧
    (lower_cb write_back num_sets line_size assoc victim index tag victim_idx plru).1
        = { valid := true, tag := some tag, dirty := false } ∧
    (lower_cb write_back num_sets line_size assoc victim index tag victim_idx plru).2.1
        = update_on_access assoc victim_idx plru ∧
    (lower_cb write_back num_sets line_size assoc victim index tag victim_idx plru).2.2.count
        FillEvent.onComplete = 1 := by
  subst hwb
  refine ⟨?_, rfl, rfl, ?_⟩
  · simp [lower_cb, hv, hd, ht]
  · simp [lower_cb, hv, hd, ht, List.count_cons]

theorem fill_continuation_victim_writeback_witness :
    (true : Bool) = true ∧
    (lower_cb true 4 4 2 { valid := true, tag := some 7, dirty := true }
        1 9 0 (fun _ => 0)).2.2
      = [FillEvent.victimWrite ((7 * 4 + 1) * 4) false,
         FillEvent.install { valid := true, tag := some 9, dirty := false },
         FillEvent.plruUpdate 0,
         FillEvent.onComplete] ∧
    (lower_cb true 4 4 2 { valid := true, tag := some 7, dirty := true }
        1 9 0 (fun _ => 0)).1
      = { valid := true, tag := some 9, dirty := false } ∧
    (lower_cb true 4 4 2 { valid := true, tag := some 7, dirty := true }
        1 9 0 (fun _ => 0)).2.1
      = update_on_access 2 0 (fun _ => 0) ∧
    (lower_cb true 4 4 2 { valid := true, tag := some 7, dirty := true }
        1 9 0 (fun _ => 0)).2.2.count FillEvent.onComplete = 1 :=
  ⟨rfl,
    fill_continuation_victim_writeback true 4 4 2
      { valid := true, tag := some 7, dirty := true } 1 9 0 7 (fun _ => 0)
      (by decide) (by decide) (by decide) (by decide)⟩

/-- C2 counterexample: a read arriving at a bank that is PRECHARGING with
the matching row open is a command in an incompatible state, yet the
request is pushed onto the DDR completion heap, and the controller's
completion drain still fires its callback once its completion time
arrives, contradicting the claim that it is dropped without callback. -/
theorem ddr_incompatible_request_counterexample :
    sampleDDRMemory.bank_states (sampleDDRMemory.get_bank errReq.addr)
        = DDRState.PRECHARGING ∧
    sampleDDRMemory.bank_open_row (sampleDDRMemory.get_bank errReq.addr)
        = some (ddr_get_row errReq.addr) ∧
    errReq.req_type = ReqType.read ∧
    (errReq.completion_time, errReq)
        ∈ (sampleDDRMemory.request errReq).scheduled_completions ∧
    errReq ∈ (complete_ddr_requests 5 [errReq]).1 := by
  decide

/-- C2 amended: on a command received in an incompatible state the DDR
leaves every bank's state, timer and open row unchanged (the error is
only logged) but still enqueues the request on its completion heap; and
the controller's completion drain, which works off its own scheduled
list independently of the DDR FSM, still invokes the callback of every
completed read that carries one. -/
theorem ddr_incompatible_request_behavior (m : DDRMemory) (req : MemoryRequest)
    (hrow : m.bank_open_row (m.get_bank req.addr) = some (ddr_get_row req.addr))
    (hidle : m.bank_states (m.get_bank req.addr) ≠ DDRState.IDLE)
    (hact : m.bank_states (m.get_bank req.addr) ≠ DDRState.ACTIVATE_BANK_ROW)
    (hrd : req.req_type = ReqType.read →
      m.bank_states (m.get_bank req.addr) ≠ DDRState.READING)
    (hwr : req.req_type = ReqType.write →
      m.bank_states (m.get_bank req.addr) ≠ DDRState.WRITING) :
    (m.request req).bank_states = m.bank_states ∧
    (m.request req).bank_open_row = m.bank_open_row ∧
    (m.request req).bank_timers = m.bank_timers ∧
    (m.request req).scheduled_completions
        = m.scheduled_completions ++ [(req.completion_time, req)] ∧
    (∀ (cycle : Nat) (scheduled : List MemoryRequest), req ∈ scheduled →
      req.completion_time ≤ (cycle : Int) →
      req.req_type = ReqType.read → req.has_callback = true →
      req ∈ (complete_ddr_requests cycle scheduled).1) := by
  have hfirst : ¬ (m.bank_states (m.get_bank req.addr) = DDRState.IDLE ∨
      m.bank_open_row (m.get_bank req.addr) ≠ some (ddr_get_row req.addr)) := by
    rintro (h | h)
    · exact hidle h
    · exact h hrow
  have hdrain : ∀ (cycle : Nat) (scheduled : List MemoryRequest), req ∈ scheduled →
      req.completion_time ≤ (cycle : Int) →
      req.req_type = ReqType.read → req.has_callback = true →
      req ∈ (complete_ddr_requests cycle scheduled).1 := by
    intro cycle scheduled hmem hct hrt hcb
    simp only [complete_ddr_requests, List.mem_filter]
    exact ⟨hmem, by simp [hct, hrt, hcb]⟩
  cases hrt : req.req_type
  · have hsecond : ¬ (m.bank_states (m.get_bank req.addr) = DDRState.ACTIVATE_BANK_ROW ∨
        m.bank_states (m.get_bank req.addr) = DDRState.READING) := by
      rintro (h | h)
      · exact hact h
      · exact hrd hrt h
    refine ⟨?_, ?_, ?_, ?_,
        fun cy sc hm hct _ hcb => hdrain cy sc hm hct hrt hcb⟩ <;>
      simp [DDRMemory.request, hrt, hfirst, hsecond]
  · have hsecond : ¬ (m.bank_states (m.get_bank req.addr) = DDRState.ACTIVATE_BANK_ROW ∨
        m.bank_states (m.get_bank req.addr) = DDRState.WRITING) := by
      rintro (h | h)
      · exact hact h
      · exact hwr hrt h
    refine ⟨?_, ?_, ?_, ?_,
        fun cy sc hm hct hr hcb => absurd hr (by decide)⟩ <;>
      simp [DDRMemory.request, hrt, hfirst, hsecond]

theorem ddr_incompatible_request_behavior_witness :
    sampleDDRMemory.bank_open_row (sampleDDRMemory.get_bank errReq.addr)
        = some (ddr_get_row errReq.addr) ∧
    sampleDDRMemory.bank_states (sampleDDRMemory.get_bank errReq.addr)
        ≠ DDRState.IDLE ∧
    ((sampleDDRMemory.request errReq).bank_states = sampleDDRMemory.bank_states ∧
      (sampleDDRMemory.request errReq).bank_open_row = sampleDDRMemory.bank_open_row ∧
      (sampleDDRMemory.request errReq).bank_timers = sampleDDRMemory.bank_timers ∧
      (sampleDDRMemory.request errReq).scheduled_completions
          = sampleDDRMemory.scheduled_completions
            ++ [(errReq.completion_time, errReq)] ∧
      (∀ (cycle : Nat) (scheduled : List MemoryRequest), errReq ∈ scheduled →
        errReq.completion_time ≤ (cycle : Int) →
        errReq.req_type = ReqType.read → errReq.has_callback = true →
        errReq ∈ (complete_ddr_requests cycle scheduled).1)) :=
  ⟨by decide, by decide,
    ddr_incompatible_request_behavior sampleDDRMemory errReq (by decide)
      (by decide) (by decide) (by decide) (by decide)⟩

/-- C8 counterexample: a size of 30 not divisible by line_size * assoc
= 8, and a DDR with num_banks = 0, are both invalid configurations, yet
construction succeeds for each (and no constructor in the source can
fail except by division by zero), contradicting fail-fast validation. -/
theorem construction_fail_fast_counterexample :
    (30 : Nat) % (4 * 2) ≠ 0 ∧
    (cacheLevelInit 30 4 2 true true).isOk = true ∧
    (3 : Nat) ≠ 1 ∧ (3 : Nat) % 2 = 1 ∧
    (cacheLevelInit 32 4 3 true true).isOk = true ∧
    (ddrMemoryInit 0).num_banks = 0 := by
  refine ⟨by decide, by decide, by decide, by decide, by decide, rfl⟩

/-- C8 amended: construction performs no configuration validation.
CacheLevel construction succeeds exactly when line_size and assoc are
nonzero (the only possible failure is Python's ZeroDivisionError in the
num_sets division), regardless of power-of-two associativity or size
divisibility, and then stores num_sets = size / line_size / assoc;
DDRMemory construction succeeds for every num_banks, including zero. -/
theorem construction_no_validation (size line_size assoc : Nat)
    (wb wa : Bool) (n : Nat) :
    ((cacheLevelInit size line_size assoc wb wa).isOk = true ↔
      (line_size ≠ 0 ∧ assoc ≠ 0)) ∧
    (∀ s, cacheLevelInit size line_size assoc wb wa = Except.ok s →
      s.num_sets = size / line_size / assoc ∧ s.assoc = assoc) ∧
    (ddrMemoryInit n).num_banks = n := by
  refine ⟨?_, ?_, rfl⟩
  · by_cases h : line_size = 0 ∨ assoc = 0 <;>
      simp [cacheLevelInit, h, Except.isOk] <;> tauto
  · intro s hs
    by_cases h : line_size = 0 ∨ assoc = 0
    · simp [cacheLevelInit, h] at hs
    · simp [cacheLevelInit, h] at hs
      rw [← hs]
      exact ⟨rfl, rfl⟩

theorem construction_no_validation_witness :
    ((cacheLevelInit 32 4 3 true true).isOk = true ↔
      ((4 : Nat) ≠ 0 ∧ (3 : Nat) ≠ 0)) ∧
    (∀ s, cacheLevelInit 32 4 3 true true = Except.ok s →
      s.num_sets = 32 / 4 / 3 ∧ s.assoc = 3) ∧
    (ddrMemoryInit 0).num_banks = 0 :=
  construction_no_validation 32 4 3 true true 0

theorem tickLoop_length (cycle bw : Nat) :
    ∀ fuel processed q, (tickLoop cycle bw fuel processed q).1.length ≤ bw - processed := by
  intro fuel
  induction fuel with
  | zero => intro processed q; simp [tickLoop]
  | succ fuel ih =>
      intro processed q
      cases q with
      | nil => simp [tickLoop]
      | cons x rest =>
          simp only [tickLoop]
          by_cases hcond : (heapMin x rest).1 ≤ cycle ∧ processed < bw
          · rw [if_pos hcond]
            have := ih (processed + 1) ((x :: rest).erase (heapMin x rest))
            simp only [List.length_cons]
            omega
          · rw [if_neg hcond]
            simp

theorem tickLoop_ready (cycle bw : Nat) :
    ∀ fuel processed q p, p ∈ (tickLoop cycle bw fuel processed q).1 → p.1 ≤ cycle := by
  intro fuel
  induction fuel with
  | zero => intro processed q p hp; simp [tickLoop] at hp
  | succ fuel ih =>
      intro processed q p hp
      cases q with
      | nil => simp [tickLoop] at hp
      | cons x rest =>
          simp only [tickLoop] at hp
          by_cases hcond : (heapMin x rest).1 ≤ cycle ∧ processed < bw
          · rw [if_pos hcond] at hp
            rcases List.mem_cons.mp hp with rfl | hp2
            · exact hcond.1
            · exact ih _ _ p hp2
          · rw [if_neg hcond] at hp
            simp at hp

theorem tickLoop_remain_or_forwarded (cycle bw : Nat) :
    ∀ fuel processed q p, p ∈ q →
      p ∈ (tickLoop cycle bw fuel processed q).2 ∨
        p ∈ (tickLoop cycle bw fuel processed q).1 := by
  intro fuel
  induction fuel with
  | zero => intro processed q p hp; left; simpa [tickLoop] using hp
  | succ fuel ih =>
      intro processed q p hp
      cases q with
      | nil => simp at hp
      | cons x rest =>
          simp only [tickLoop]
          by_cases hcond : (heapMin x rest).1 ≤ cycle ∧ processed < bw
          · rw [if_pos hcond]
            by_cases hpe : p ∈ (x :: rest).erase (heapMin x rest)
            · rcases ih (processed + 1) _ p hpe with h | h
              · left; exact h
              · right; exact List.mem_cons_of_mem _ h
            · right
              have hpm : p = heapMin x rest := by
                by_contra hne
                exact hpe ((List.mem_erase_of_ne hne).mpr hp)
              rw [hpm]
              exact List.mem_cons_self _ _
          · rw [if_neg hcond]
            left; exact hp

/-- C6: in any interconnect tick at most bandwidth requests are
forwarded, every forwarded request was ready (ready_time at most the
pre-increment cycle), and every queued entry either remains queued or
was forwarded. -/
theorem interconnect_bandwidth_enforced (ic : Interconnect) :
    (ic.tick).1.length ≤ ic.bandwidth ∧
    (∀ p ∈ (tickLoop ic.cycle ic.bandwidth ic.queue.length 0 ic.queue).1,
      p.1 ≤ ic.cycle ∧ p.2 ∈ (ic.tick).1) ∧
    (∀ p ∈ ic.queue, p ∈ (ic.tick).2.queue ∨ p.2 ∈ (ic.tick).1) := by
  refine ⟨?_, ?_, ?_⟩
  · have := tickLoop_length ic.cycle ic.bandwidth ic.queue.length 0 ic.queue
    simp only [Interconnect.tick, List.length_map]
    omega
  · intro p hp
    refine ⟨tickLoop_ready _ _ _ _ _ p hp, ?_⟩
    simp only [Interconnect.tick]
    exact List.mem_map_of_mem Prod.snd hp
  · intro p hp
    rcases tickLoop_remain_or_forwarded ic.cycle ic.bandwidth ic.queue.length 0
        ic.queue p hp with h | h
    · left
      simpa [Interconnect.tick] using h
    · right
      simp only [Interconnect.tick]
      exact List.mem_map_of_mem Prod.snd h

theorem interconnect_bandwidth_enforced_witness :
    (sampleInterconnect.tick).1.length ≤ sampleInterconnect.bandwidth ∧
    (∀ p ∈ (tickLoop sampleInterconnect.cycle sampleInterconnect.bandwidth
        sampleInterconnect.queue.length 0 sampleInterconnect.queue).1,
      p.1 ≤ sampleInterconnect.cycle ∧ p.2 ∈ (sampleInterconnect.tick).1) ∧
    (∀ p ∈ sampleInterconnect.queue,
      p ∈ (sampleInterconnect.tick).2.queue ∨ p.2 ∈ (sampleInterconnect.tick).1) :=
  interconnect_bandwidth_enforced sampleInterconnect

theorem pairLt_trans {a b c : Nat × MemoryRequest} (h1 : pairLt a b = true)
    (h2 : pairLt b c = true) : pairLt a c = true := by
  simp only [pairLt, MemoryRequest.lt, Bool.or_eq_true, Bool.and_eq_true,
    decide_eq_true_eq] at *
  omega

theorem heapMin_mem : ∀ (l : List (Nat × MemoryRequest)) (x : Nat × MemoryRequest),
    heapMin x l ∈ x :: l := by
  intro l
  induction l with
  | nil => intro x; simp [heapMin]
  | cons r rest ih =>
      intro x
      simp only [heapMin]
      by_cases h : pairLt r x = true
      · rw [if_pos h]
        have := ih r
        simp only [List.mem_cons] at this ⊢
        tauto
      · rw [if_neg h]
        have := ih x
        simp only [List.mem_cons] at this ⊢
        tauto

theorem heapMin_min : ∀ (l : List (Nat × MemoryRequest)) (x p : Nat × MemoryRequest),
    p ∈ x :: l → pairLt p (heapMin x l) = false := by
  intro l
  induction l with
  | nil =>
      intro x p hp
      simp at hp
      subst hp
      simp [heapMin, pairLt, MemoryRequest.lt]
  | cons r rest ih =>
      intro x p hp
      simp only [heapMin]
      by_cases h : pairLt r x = true
      · rw [if_pos h]
        rcases List.mem_cons.mp hp with rfl | hp2
        · have hrres := ih r r (by simp)
          cases hb : pairLt p (heapMin r rest)
          · rfl
          · have h3 := pairLt_trans h hb
            rw [hrres] at h3
            exact absurd h3 (by simp)
        · exact ih r p hp2
      · rw [if_neg h]
        rcases List.mem_cons.mp hp with rfl | hp2
        · exact ih _ p (by simp)
        · rcases List.mem_cons.mp hp2 with rfl | hp3
          · have h1 : pairLt p x = false := Bool.eq_false_iff.mpr h
            have h2 := ih x x (by simp)
            simp only [pairLt, MemoryRequest.lt, Bool.or_eq_false_iff,
              Bool.and_eq_false_iff, decide_eq_false_iff_not,
              decide_eq_true_eq] at h1 h2 ⊢
            omega
          · exact ih x p (by simp [hp3])

theorem tickLoop_sub (cycle bw : Nat) :
    ∀ fuel processed q p, p ∈ (tickLoop cycle bw fuel processed q).1 → p ∈ q := by
  intro fuel
  induction fuel with
  | zero => intro processed q p hp; simp [tickLoop] at hp
  | succ fuel ih =>
      intro processed q p hp
      cases q with
      | nil => simp [tickLoop] at hp
      | cons x rest =>
          simp only [tickLoop] at hp
          by_cases hcond : (heapMin x rest).1 ≤ cycle ∧ processed < bw
          · rw [if_pos hcond] at hp
            rcases List.mem_cons.mp hp with rfl | hp2
            · exact heapMin_mem rest x
            · exact List.mem_of_mem_erase (ih _ _ p hp2)
          · rw [if_neg hcond] at hp
            simp at hp

theorem tickLoop_sorted (cycle bw : Nat) :
    ∀ fuel processed q,
      List.Pairwise (fun a b => pairLt b a = false)
        (tickLoop cycle bw fuel processed q).1 := by
  intro fuel
  induction fuel with
  | zero => intro processed q; simp [tickLoop]
  | succ fuel ih =>
      intro processed q
      cases q with
      | nil => simp [tickLoop]
      | cons x rest =>
          simp only [tickLoop]
          by_cases hcond : (heapMin x rest).1 ≤ cycle ∧ processed < bw
          · rw [if_pos hcond]
            refine List.Pairwise.cons ?_ (ih _ _)
            intro b hb
            have hbq : b ∈ x :: rest :=
              List.mem_of_mem_erase (tickLoop_sub cycle bw _ _ _ b hb)
            exact heapMin_min rest x b hbq
          · rw [if_neg hcond]
            simp

/-- C9 counterexample: two requests with equal ready_time 10, pushed in
the order icReqA (arrival time 5) then icReqB (arrival time 3), are
forwarded in the order icReqB, icReqA — the heap tie-break compares the
requests' arrival times, not their insertion order. -/
theorem interconnect_tie_insertion_order_counterexample :
    sampleInterconnect.queue = [(10, icReqA), (10, icReqB)] ∧
    icReqA ≠ icReqB ∧
    (sampleInterconnect.tick).1 = [icReqB, icReqA] ∧
    (sampleInterconnect.tick).1 ≠ [icReqA, icReqB] := by
  decide

/-- C9 amended: the interconnect forwards in nondecreasing lexicographic
(ready_time, request arrival time) order, so among requests with equal
ready_time the forwarding order follows the requests' arrival times (the
key MemoryRequest.__lt__ compares), not their insertion order. -/
theorem interconnect_forward_order (ic : Interconnect) :
    List.Pairwise
      (fun a b => a.1 < b.1 ∨ (a.1 = b.1 ∧ a.2.time ≤ b.2.time))
      (tickLoop ic.cycle ic.bandwidth ic.queue.length 0 ic.queue).1 := by
  refine (tickLoop_sorted ic.cycle ic.bandwidth ic.queue.length 0 ic.queue).imp ?_
  intro a b hab
  simp only [pairLt, MemoryRequest.lt, Bool.or_eq_false_iff,
    Bool.and_eq_false_iff, decide_eq_false_iff_not, decide_eq_true_eq] at hab
  omega

theorem interconnect_forward_order_witness :
    List.Pairwise
      (fun a b => a.1 < b.1 ∨ (a.1 = b.1 ∧ a.2.time ≤ b.2.time))
      (tickLoop sampleInterconnect.cycle sampleInterconnect.bandwidth
        sampleInterconnect.queue.length 0 sampleInterconnect.queue).1 :=
  interconnect_forward_order sampleInterconnect

/-- C7: an incoming operation conflicts exactly with a pending entry at
the same address of the other kind; reads never stall on pending reads;
a hazardous operation is stored in stall_op and not issued, a clear one
is issued (a read additionally entering pending_accesses). -/
theorem core_hazard_rule (pending : List (ReqType × Nat)) (k : ReqType) (a : Nat) :
    (dependency pending k a = true ↔ ∃ p ∈ pending, p.2 = a ∧ p.1 ≠ k) ∧
    ((∀ p ∈ pending, p.1 = ReqType.read) →
      dependency pending ReqType.read a = false) ∧
    (dependency pending k a = true →
      core_issue_step pending k a = (some (k, a), none, pending)) ∧
    (dependency pending k a = false →
      (core_issue_step pending k a).1 = none ∧
      (core_issue_step pending k a).2.1 = some (k, a)) := by
  refine ⟨?_, ?_, ?_, ?_⟩
  · simp only [dependency, List.any_eq_true, Bool.and_eq_true, decide_eq_true_eq]
    constructor
    · rintro ⟨p, hp, hne, heq⟩
      exact ⟨p, hp, heq, fun h => hne h.symm⟩
    · rintro ⟨p, hp, heq, hne⟩
      exact ⟨p, hp, fun h => hne h.symm, heq⟩
  · intro hall
    rw [Bool.eq_false_iff]
    intro hdep
    simp only [dependency, List.any_eq_true, Bool.and_eq_true,
      decide_eq_true_eq] at hdep
    obtain ⟨p, hp, hne, _⟩ := hdep
    exact hne (hall p hp).symm
  · intro h
    simp [core_issue_step, h]
  · intro h
    cases k <;> simp [core_issue_step, h]

theorem core_hazard_rule_witness :
    (dependency [(ReqType.write, 5)] ReqType.read 5 = true ↔
      ∃ p ∈ [(ReqType.write, 5)], p.2 = 5 ∧ p.1 ≠ ReqType.read) ∧
    ((∀ p ∈ [(ReqType.write, 5)], p.1 = ReqType.read) →
      dependency [(ReqType.write, 5)] ReqType.read 5 = false) ∧
    (dependency [(ReqType.write, 5)] ReqType.read 5 = true →
      core_issue_step [(ReqType.write, 5)] ReqType.read 5
        = (some (ReqType.read, 5), none, [(ReqType.write, 5)])) ∧
    (dependency [(ReqType.write, 5)] ReqType.read 5 = false →
      (core_issue_step [(ReqType.write, 5)] ReqType.read 5).1 = none ∧
      (core_issue_step [(ReqType.write, 5)] ReqType.read 5).2.1
        = some (ReqType.read, 5)) :=
  core_hazard_rule [(ReqType.write, 5)] ReqType.read 5

end MemSim
